import Mathlib

/-!
Verification of the incremental-build core (filter / dependency graph / cache
sub-plugins) against its specification.  The JavaScript sources are embedded
shallowly: JS objects used as ordered string-keyed maps become association
lists, JS mutation becomes explicit state passing, the Node `path` module is
reimplemented for POSIX separators over character lists, and the one place
the code can throw (a `null` rename rule, whose `typeof` is `object` so that
`rename.from` dereferences `null`) is modelled with `Except`.

Conventions:
* paths are `String`s relative to the source root, separator `/`, no
  trailing separator (that is how the host pipeline keys its files);
* a JS object used as a set (`modifiedFiles`, `removedFiles`) becomes a
  `List String` of its keys in insertion order;
* a JS object used as a map (`files`, `filtered`, `cached`) becomes a
  `List (String × FileRecord)` in key-insertion order;
* glob matchers (the `minimatch` library) and user callbacks are opaque
  functions, regular-expression dependency patterns are represented by their
  match-extraction function, with the built-in pug pattern
  `(?:include|extends)\s+([^\s]+)` implemented concretely.
-/

/-! ## Character and string toolkit (structural, kernel-reducible) -/

/-- Split a character list at every occurrence of the separator character;
mirrors `String.prototype.split` with a single-character separator. -/
def splitOnCharList (c : Char) : List Char → List (List Char)
  | [] => [[]]
  | x :: xs =>
    let r := splitOnCharList c xs
    if x == c then [] :: r
    else
      match r with
      | h :: t => (x :: h) :: t
      | [] => [[x]]

/-- Boolean list-prefix test. -/
def listPrefixOf : List Char → List Char → Bool
  | [], _ => true
  | _ :: _, [] => false
  | a :: as, b :: bs => a == b && listPrefixOf as bs

/-- `p` is a prefix of `s`, i.e. `s.indexOf(p) === 0` for a match at the
start; used to embed every `indexOf(x) === 0` test of the source. -/
def strStartsWith (s p : String) : Bool := listPrefixOf p.data s.data

/-- `s` ends with `p`. -/
def strEndsWith (s p : String) : Bool := listPrefixOf p.data.reverse s.data.reverse

/-- Split a path into its `/`-separated components. -/
def splitPath (s : String) : List String := (splitOnCharList '/' s.data).map String.mk

/-- Drop the last `n` characters of a string. -/
def strDropRight (s : String) (n : Nat) : String := String.mk (s.data.take (s.data.length - n))

/-! ## Node `path` module (POSIX flavour)

The pipeline only ever handles normalized relative keys (`sub/a.pug`) and
absolute roots without trailing separators, and the functions below agree
with Node on those inputs. -/

/-- The component normalization underlying `path.normalize`: drops empty and
`.` components, resolves `..` against the accumulator. -/
def normComps (isAbs : Bool) : List String → List String → List String
  | acc, [] => acc.reverse
  | acc, c :: cs =>
    if c == "" || c == "." then normComps isAbs acc cs
    else if c == ".." then
      match acc with
      | [] => normComps isAbs (if isAbs then [] else [".."]) cs
      | t :: rest =>
        if t == ".." then normComps isAbs (".." :: t :: rest) cs
        else normComps isAbs rest cs
    else normComps isAbs (c :: acc) cs

/-- `path.normalize` for POSIX paths. -/
def pathNormalize (s : String) : String :=
  let isAbs := strStartsWith s "/"
  let comps := normComps isAbs [] (splitPath s)
  if comps == [] then (if isAbs then "/" else ".")
  else (if isAbs then "/" else "") ++ "/".intercalate comps

/-- `path.join(a, b)`: join the non-empty parts with a separator, then
normalize. -/
def pathJoin (a b : String) : String :=
  let parts := [a, b].filter (fun s => !(s == ""))
  if parts == [] then "." else pathNormalize ("/".intercalate parts)

/-- `path.dirname` for POSIX paths without trailing separators. -/
def pathDirname (s : String) : String :=
  let parts := splitPath s
  match parts with
  | [] => "."
  | [_] => "."
  | _ =>
    let init := parts.dropLast
    if init == [""] then "/" else "/".intercalate init

/-- The last `/`-separated component of a path. -/
def lastComp (s : String) : String := (splitPath s).getLastD ""

/-- Index of the last `.` in a component, if any. -/
def lastDotIdx (cs : List Char) : Option Nat :=
  match cs.reverse.findIdx? (fun c => c == '.') with
  | none => none
  | some j => some (cs.length - 1 - j)

/-- `path.extname` for POSIX paths: the suffix of the last component from
its last dot, empty when the only dot leads the component. -/
def pathExtname (s : String) : String :=
  let bp := (lastComp s).data
  match lastDotIdx bp with
  | none => ""
  | some 0 => ""
  | some i => String.mk (bp.drop i)

/-- `path.basename(s, ext)`: the last component with a matching non-trivial
`ext` suffix removed. -/
def pathBasename (s : String) (ext : String) : String :=
  let bp := lastComp s
  if !(ext == "") && !(bp == ext) && strEndsWith bp ext then
    strDropRight bp ext.data.length
  else bp

/-- Drop the longest common component prefix of two component lists. -/
def dropCommon : List String → List String → (List String × List String)
  | a :: as, b :: bs => if a == b then dropCommon as bs else (a :: as, b :: bs)
  | as, bs => (as, bs)

/-- `path.relative(from, to)` for absolute, normalized arguments, which is
how the dependency graph calls it (`metalsmith.source()` and
`path.join(baseDir, dependency)` with an absolute `baseDir`). -/
def pathRelative (fromP toP : String) : String :=
  let fc := (splitPath fromP).filter (fun s => !(s == ""))
  let tc := (splitPath toP).filter (fun s => !(s == ""))
  let pr := dropCommon fc tc
  "/".intercalate ((pr.1.map (fun _ => "..")) ++ pr.2)

/-! ## Association lists: JS objects as ordered string-keyed maps -/

/-- Key-presence test (`key in obj`). -/
def assocContains {α : Type} (l : List (String × α)) (k : String) : Bool :=
  l.any (fun kv => kv.1 == k)

/-- Property read (`obj[key]`), `none` for a missing key (JS `undefined`). -/
def assocLookup {α : Type} (l : List (String × α)) (k : String) : Option α :=
  (l.find? (fun kv => kv.1 == k)).map (fun kv => kv.2)

/-- Property write (`obj[key] = v`): overwrite in place when present,
append otherwise — JS insertion-order semantics for string keys. -/
def assocSet {α : Type} (l : List (String × α)) (k : String) (v : α) : List (String × α) :=
  if assocContains l k then l.map (fun kv => if kv.1 == k then (k, v) else kv)
  else l ++ [(k, v)]

/-- Property deletion (`delete obj[key]`). -/
def assocErase {α : Type} (l : List (String × α)) (k : String) : List (String × α) :=
  l.filter (fun kv => !(kv.1 == k))

/-- Object spread `{...a, ...b}`: the keys of `a` in order with values
overridden by `b` where present, then the keys of `b` new to `a`. -/
def assocMerge {α : Type} (a b : List (String × α)) : List (String × α) :=
  a.map (fun kv => (kv.1, (assocLookup b kv.1).getD kv.2)) ++
    b.filter (fun kv => !(assocContains a kv.1))

/-! ## Data model -/

/-- A JS property value as far as the cache property-copy loop needs:
either a string or `undefined`. -/
inductive JSVal where
  | undef
  | str (s : String)
deriving DecidableEq, Repr

/-- A metalsmith file record: an opaque content blob plus arbitrary further
metadata properties. -/
structure FileRecord where
  contents : String
  meta : List (String × JSVal) := []
deriving DecidableEq, Repr

/-- The mutable path-to-record collection owned by the host pipeline. -/
abbrev Batch := List (String × FileRecord)

/-- Record lookup in a batch. -/
def lookupFile (files : Batch) (p : String) : Option FileRecord := assocLookup files p

/-- `files[filePath]` where the caller has ensured the key is present (the
dependency graph only looks up keys taken from `Object.keys(files)`). -/
def fileOf (files : Batch) (p : String) : FileRecord :=
  (lookupFile files p).getD { contents := "" }

/-- src/lib/is-in-dir.js: `dirs[i].indexOf(path) === 0`, an early-return
scan.  Note the direction of the test as written in the source: it asks
whether the directory string starts with the path. -/
def isInDir (path : String) (dirs : List String) : Bool :=
  dirs.any (fun d => strStartsWith d path)

/-- `obj[key] = true` on a JS object used as a set: no-op when present,
append otherwise. -/
def insertMod (p : String) (l : List String) : List String :=
  if l.contains p then l else l ++ [p]

/-! ## Dependency resolver lookup (src/lib/get-dep-resolver.js)

A configured dependency resolver is a callback, a pattern, or an
extension-keyed map of either.  A regular expression is represented by its
match-extraction function (all first capture groups of the repeated global
`exec` loop); a string-typed pattern, which the source compiles with
`new RegExp(s, 'gm')` before use, is likewise represented by the compiled
extraction function. -/

/-- The shapes a `depResolver` configuration value can take. -/
inductive DepSpec where
  | undef
  | fn (f : FileRecord → Option String → List String)
  | pattern (extract : String → List String)
  | extMap (m : List (String × DepSpec))

/-- JS whitespace class `\s` on the code points the pipeline meets. -/
def isWsChar (c : Char) : Bool :=
  c == ' ' || c == '\t' || c == '\n' || c == '\r' || c == '\x0b' || c == '\x0c'

/-- Match the literal alternation `(?:include|extends)` at the head. -/
def matchKeyword : List Char → Option (List Char)
  | 'i' :: 'n' :: 'c' :: 'l' :: 'u' :: 'd' :: 'e' :: rest => some rest
  | 'e' :: 'x' :: 't' :: 'e' :: 'n' :: 'd' :: 's' :: rest => some rest
  | _ => none

/-- Greedy `[^\s]+` capture: the longest non-whitespace run at the head. -/
def takeToken : List Char → (List Char × List Char)
  | [] => ([], [])
  | c :: cs =>
    if isWsChar c then ([], c :: cs)
    else
      let r := takeToken cs
      (c :: r.1, r.2)

/-- Greedy `\s+` at the head, returning the count consumed. -/
def dropWs : List Char → (Nat × List Char)
  | [] => (0, [])
  | c :: cs =>
    if isWsChar c then
      let r := dropWs cs
      (r.1 + 1, r.2)
    else (0, c :: cs)

/-- The repeated non-overlapping `exec` scan of
`/(?:include|extends)\s+([^\s]+)/mg`; the fuel starts at the input length
plus one and every step consumes at least one character, so it never runs
out. -/
def pugScanAux : Nat → List Char → List String
  | 0, _ => []
  | _ + 1, [] => []
  | n + 1, c :: cs =>
    match matchKeyword (c :: cs) with
    | some rest =>
      let ws := dropWs rest
      let tok := takeToken ws.2
      if ws.1 > 0 && tok.1.length > 0 then String.mk tok.1 :: pugScanAux n tok.2
      else pugScanAux n cs
    | none => pugScanAux n cs

/-- The built-in pug dependency pattern as an extraction function. -/
def pugExtract (s : String) : List String := pugScanAux (s.data.length + 1) s.data

/-- The built-in default resolver table: `pug` maps to the include/extends
pattern, everything else has no resolver. -/
def depResolverDefault (key : String) : DepSpec :=
  if key == "pug" then DepSpec.pattern pugExtract else DepSpec.undef

/-- The extension-derived lookup key: leading dot stripped, `.jade` aliased
to `pug`. -/
def extKey (file : String) : String :=
  let ext := pathExtname file
  if ext == ".jade" then "pug" else String.mk (ext.data.drop 1)

/-- src/lib/get-dep-resolver.js: a concrete callback or pattern applies to
every file; otherwise the extension key is looked up in the caller-supplied
map and then in the default table.  The result is always a concrete
resolver or `undef`. -/
def getDepResolver (file : String) (spec : DepSpec) : DepSpec :=
  match spec with
  | DepSpec.fn f => DepSpec.fn f
  | DepSpec.pattern e => DepSpec.pattern e
  | DepSpec.extMap m =>
    let key := extKey file
    match assocLookup m key with
    | some (DepSpec.fn f) => DepSpec.fn f
    | some (DepSpec.pattern e) => DepSpec.pattern e
    | _ => depResolverDefault key
  | DepSpec.undef => depResolverDefault (extKey file)

/-- Whether a resolver value is usable (`!depResolver` is the skip test in
the dependency graph, and `getDepResolver` only returns concrete resolvers
or `undef`). -/
def DepSpec.isConcrete : DepSpec → Bool
  | DepSpec.fn _ => true
  | DepSpec.pattern _ => true
  | _ => false

/-! ## Dependency graph (src/lib/dep-graph.js) -/

/-- Collect the referenced paths of one file: the callback result or the
repeated pattern matches over the file contents. -/
def collectDeps (spec : DepSpec) (file : FileRecord) (baseDir : Option String) : List String :=
  match spec with
  | DepSpec.fn f => f file baseDir
  | DepSpec.pattern e => e file.contents
  | _ => []

/-- JS truthiness of the optional `baseDir` (absent or empty is falsy). -/
def hasBase (b : Option String) : Bool :=
  match b with
  | some s => !(s == "")
  | none => false

/-- Normalize one referenced path exactly as the graph does: a reference
starting with the separator is joined to `baseDir` and made relative to the
source root, anything else is joined to the directory of the referencing
file. -/
def normalizeDep (baseDir : Option String) (source : String) (filePath : String)
    (dep : String) : String :=
  if hasBase baseDir && strStartsWith dep "/" then
    pathRelative source (pathJoin (baseDir.getD "") dep)
  else
    pathJoin (pathDirname filePath) dep

/-- The mark test of dep-graph.js lines 134-136: the normalized reference is
a modified file, or the `isInDir` scan hits over the modified-files key list
or over the modified directories. -/
def depHit (modFiles modDirs : List String) (d : String) : Bool :=
  modFiles.contains d || isInDir d modFiles || isInDir d modDirs

/-- The loop state of the dependency graph scan: the spliced `paths` array,
the loop index `i`, the modified-files set being grown, and the
`depResolver` variable, which the loop reassigns to its own resolved
result. -/
structure DGState where
  paths : List String
  i : Nat
  modFiles : List String
  spec : DepSpec

/-- One iteration of the scan body at index `st.i`:
* resolve the dependency resolver (reassigning the loop variable);
* no resolver, already marked, or `isInDir` over the modified dirs: splice
  the path out and continue at the same index;
* otherwise collect and normalize the references; on the first hit mark the
  file, splice it out and set the index to `0` — the `for` update then
  resumes at `1`; on no hit advance the index. -/
def dgStep (files : Batch) (modDirs : List String) (baseDir : Option String)
    (source : String) (st : DGState) : DGState :=
  let filePath := st.paths.getD st.i ""
  let spec := getDepResolver filePath st.spec
  if !spec.isConcrete || st.modFiles.contains filePath || isInDir filePath modDirs then
    { st with paths := st.paths.eraseIdx st.i, spec := spec }
  else
    match ((collectDeps spec (fileOf files filePath) baseDir).map
        (normalizeDep baseDir source filePath)).find? (depHit st.modFiles modDirs) with
    | some _ =>
      { paths := st.paths.eraseIdx st.i, i := 1,
        modFiles := insertMod filePath st.modFiles, spec := spec }
    | none => { st with i := st.i + 1, spec := spec }

/-- Termination measure for the scan: lexicographic (array length, distance
of the index from the end) packed into one natural. -/
def dgMeasure (st : DGState) : Nat :=
  st.paths.length * (st.paths.length + 1) + (st.paths.length - st.i)

/-- Run the scan for at most `fuel` iterations; `none` when the fuel runs
out before the loop condition `i < paths.length` fails. -/
def dgRun (files : Batch) (modDirs : List String) (baseDir : Option String)
    (source : String) : Nat → DGState → Option (List String)
  | 0, _ => none
  | fuel + 1, st =>
    if st.i < st.paths.length then
      dgRun files modDirs baseDir source fuel (dgStep files modDirs baseDir source st)
    else some st.modFiles

/-- The initial scan state over `Object.keys(files)`. -/
def dgInit (files : Batch) (modFiles : List String) (spec : DepSpec) : DGState :=
  { paths := files.map Prod.fst, i := 0, modFiles := modFiles, spec := spec }

/-- The whole `depGraph` call: the scan run with provably sufficient fuel,
returning the grown modified-files set. -/
def depGraphFrom (files : Batch) (modFiles modDirs : List String)
    (baseDir : Option String) (source : String) (spec : DepSpec) : List String :=
  (dgRun files modDirs baseDir source (dgMeasure (dgInit files modFiles spec) + 1)
    (dgInit files modFiles spec)).getD modFiles

/-! ## Filter stage (src/index.js, `filter`) -/

/-- The outcome of one filter run.  `movedOut` is the set of records this
run moved out of the batch (the per-run filtered-aside delta); `filtered`
is the module-global `filtered` object after the run. -/
structure FilterOut where
  files : Batch
  modFiles : List String
  filtered : Batch
  movedOut : Batch
deriving DecidableEq, Repr

/-- The filter sub-plugin.  A force glob is represented by its `minimatch`
matcher.  While the watcher has not yet triggered a build (`isRunning`
false) the stage is a pass-through.  Otherwise: mark every batch path hit
by a force glob, run the dependency graph, then move every batch record
that is neither marked nor `isInDir` the modified dirs into the filtered
set and delete it from the batch. -/
def filterStage (isRunning : Bool) (forceGlobs : List (String → Bool)) (files : Batch)
    (modFiles modDirs : List String) (baseDir : Option String) (source : String)
    (spec : DepSpec) (filtered0 : Batch) : FilterOut :=
  if !isRunning then
    { files := files, modFiles := modFiles, filtered := filtered0, movedOut := [] }
  else
    let filesPaths := files.map Prod.fst
    let modFiles1 := forceGlobs.foldl
      (fun acc g => (filesPaths.filter g).foldl (fun a p => insertMod p a) acc) modFiles
    let modFiles2 := depGraphFrom files modFiles1 modDirs baseDir source spec
    let keep := fun p => modFiles2.contains p || isInDir p modDirs
    let moved := files.filter (fun kv => !(keep kv.1))
    { files := files.filter (fun kv => keep kv.1),
      modFiles := modFiles2,
      filtered := moved.foldl (fun acc kv => assocSet acc kv.1 kv.2) filtered0,
      movedOut := moved }

/-! ## Rename resolution (src/lib/resolve-rename.js) -/

/-- The decomposed path handed to a callback-form rename rule. -/
structure PathObject where
  dirname : String
  basename : String
  ext : String

/-- The shapes an `options.rename` value can take at the type dispatch of
the source: a function; an object with truthy `from` and `to`, represented
by the substitution `s.replace(from, to)` performs; an object (not null)
missing a truthy `from`/`to`; the value `null`, whose `typeof` is
`'object'` so the shape test dereferences it; any non-object non-function
value (absent, string, number, boolean). -/
inductive JSRename where
  | func (f : PathObject → PathObject)
  | objFromTo (subst : String → String)
  | objOther
  | nullVal
  | nonObject

/-- `typeof rename === 'function' || (object with truthy from and to)`,
for the shapes on which the test itself does not throw. -/
def validRename : JSRename → Bool
  | JSRename.func _ => true
  | JSRename.objFromTo _ => true
  | _ => false

/-- Whether the shape test `rename.from` would dereference `null`. -/
def isNullRename : JSRename → Bool
  | JSRename.nullVal => true
  | _ => false

/-- src/lib/resolve-rename.js: a callback rule is applied to the decomposed
path and the result rejoined; a from/to rule performs the substitution; any
other shape returns the input — except `null`, where computing
`renameIsRegex` throws a `TypeError`. -/
def resolveRename (file : String) (rename : JSRename) : Except String String :=
  match rename with
  | JSRename.nullVal => Except.error "TypeError: rename.from on null"
  | JSRename.func f =>
    let extname := pathExtname file
    let renamed := f { dirname := pathDirname file, basename := pathBasename file extname,
                       ext := extname }
    Except.ok (pathJoin renamed.dirname (renamed.basename ++ renamed.ext))
  | JSRename.objFromTo subst => Except.ok (subst file)
  | JSRename.objOther => Except.ok file
  | JSRename.nonObject => Except.ok file

/-- `resolveRename` as the cache stage uses it, under the `validRename`
guard that excludes the only erroring shape. -/
def resolveRenameD (p : String) (r : JSRename) : String :=
  match resolveRename p r with
  | Except.ok s => s
  | Except.error _ => p

/-- The concrete substitution of the from/to rule
`{from: /\.pug$/, to: '.html'}` used by the rename-continuity examples. -/
def replacePugHtml (s : String) : String :=
  if strEndsWith s ".pug" then strDropRight s 4 ++ ".html" else s

/-! ## Cache stage (src/index.js, `cache`) -/

/-- A property-copy configuration (`options.props`): a bare string or an
array whose entries are property names or nested field paths. -/
inductive PropEntry where
  | single (k : String)
  | fieldPath (ks : List String)
deriving DecidableEq, Repr

/-- The `options.props` value when configured: a bare string (wrapped into
a one-entry array by the stage) or an array of entries. -/
inductive PropsVal where
  | one (k : String)
  | many (l : List PropEntry)
deriving DecidableEq, Repr

/-- Metadata property read: a missing key reads as `undefined`. -/
def metaGet (f : FileRecord) (k : String) : JSVal := (assocLookup f.meta k).getD JSVal.undef

/-- Metadata property write. -/
def metaSet (f : FileRecord) (k : String) (v : JSVal) : FileRecord :=
  { f with meta := assocSet f.meta k v }

/-- The per-record restore block (index.js lines 248-281): copy `contents`
from the cached snapshot, then run the property-copy loop.  The loop body
reads `const prop = props.length` — the array length, not `props[j]` — so
`Array.isArray(prop)` is always false and every pass executes
`file[prop] = cache[prop]` with the numeric length as the key. -/
def restoredRecord (props : Option PropsVal) (file cacheRec : FileRecord) : FileRecord :=
  let file := { file with contents := cacheRec.contents }
  match props with
  | none => file
  | some pv =>
    let propsList : List PropEntry :=
      match pv with
      | PropsVal.one k => [PropEntry.single k]
      | PropsVal.many l => l
    (List.range propsList.length).foldl
      (fun f _ =>
        let prop := toString propsList.length
        metaSet f prop (metaGet cacheRec prop))
      file

/-- The shared lookup idiom of the cache stage (index.js lines 203-213 and
239-246): try the key directly in the cache; when absent and the rename
rule is valid, reassign the loop variable to the renamed key and try again.
Returns the key under which the cache hit happened, `none` on a miss (on a
renamed miss the JS loop variable stays reassigned, but nothing reads it
afterwards). -/
def cacheKeyLookup (validR : Bool) (rename : JSRename) (cached : Batch)
    (k : String) : Option String :=
  if assocContains cached k then some k
  else if validR then
    let k2 := resolveRenameD k rename
    if assocContains cached k2 then some k2 else none
  else none

/-- The removed-files reconciliation (index.js lines 200-220): for each key
of the `removedFiles` snapshot, look the key up in the cache directly, then
— under a valid rename rule — under the renamed key; when found, delete
the (possibly renamed) loop variable from both the cache and
`removedFiles`. -/
def processRemoved (validR : Bool) (rename : JSRename) :
    List String → Batch → List String → (Batch × List String)
  | [], cached, removed => (cached, removed)
  | k :: ks, cached, removed =>
    match cacheKeyLookup validR rename cached k with
    | some key2 =>
      processRemoved validR rename ks (assocErase cached key2)
        (removed.filter (fun x => !(x == key2)))
    | none => processRemoved validR rename ks cached removed

/-- The restore loop (index.js lines 233-286): for each filtered-aside
record, locate the cached snapshot directly or under the renamed key; when
found, build the restored record and write it into the batch under the
resolved key; otherwise drop the record. -/
def restoreAll (validR : Bool) (rename : JSRename) (props : Option PropsVal) (cached : Batch) :
    List (String × FileRecord) → Batch → Batch
  | [], files => files
  | (k, r) :: rest, files =>
    match cacheKeyLookup validR rename cached k with
    | some key2 =>
      match assocLookup cached key2 with
      | some c =>
        restoreAll validR rename props cached rest
          (assocSet files key2 (restoredRecord props r c))
      | none => restoreAll validR rename props cached rest files
    | none => restoreAll validR rename props cached rest files

/-- The post-run state of the cache stage. -/
structure CacheResult where
  files : Batch
  filtered : Batch
  removedFiles : List String
  modFiles : List String
  cached : Batch
deriving DecidableEq, Repr

/-- The running-cycle body of the cache stage, after the `null`-rename
throw has been excluded: reconcile removed files, purge cached keys hit by
the removed-directory `isInDir` scan, restore the filtered-aside records,
drain `filtered`, mark every snapshotted path modified, and merge the
snapshot over the surviving cache. -/
def cacheCore (rename : JSRename) (props : Option PropsVal) (files filtered : Batch)
    (removedF removedD modF : List String) (cached : Batch) : CacheResult :=
  let vR := validRename rename
  let pr := processRemoved vR rename removedF cached removedF
  let cached2 := pr.1.filter (fun kv => !(isInDir kv.1 removedD))
  { files := restoreAll vR rename props cached2 filtered files,
    filtered := [],
    removedFiles := pr.2,
    modFiles := files.foldl (fun acc kv => insertMod kv.1 acc) modF,
    cached := assocMerge cached2 files }

/-- The cache sub-plugin.  The deep-copied snapshot of the batch is taken
on entry; when no build is running (the first, full cycle) the whole
reconciliation block is skipped and the snapshot is merely merged into the
store.  A `null` rename rule makes the running-cycle shape test throw. -/
def cacheStage (isRunning : Bool) (rename : JSRename) (props : Option PropsVal)
    (files filtered : Batch) (removedF removedD modF : List String)
    (cached : Batch) : Except String CacheResult :=
  if isRunning then
    if isNullRename rename then Except.error "TypeError: rename.from on null"
    else Except.ok (cacheCore rename props files filtered removedF removedD modF cached)
  else
    Except.ok { files := files, filtered := filtered, removedFiles := removedF,
                modFiles := modF, cached := assocMerge cached files }

/-- A default result for extracting from `Except`. -/
def cacheResDefault : CacheResult :=
  { files := [], filtered := [], removedFiles := [], modFiles := [], cached := [] }

/-- The cache stage result under the shapes that do not throw. -/
def cacheRunD (isRunning : Bool) (rename : JSRename) (props : Option PropsVal)
    (files filtered : Batch) (removedF removedD modF : List String)
    (cached : Batch) : CacheResult :=
  (cacheStage isRunning rename props files filtered removedF removedD modF cached).toOption.getD
    cacheResDefault

/-! ## Concrete example inputs used by the claim checks -/

/-- A dependency resolver callback under which a file references exactly
the path written in its contents (empty contents meaning no reference);
one instance of the single-callback configuration shape. -/
def specRefContents : DepSpec :=
  DepSpec.fn (fun f _ => if f.contents == "" then [] else [f.contents])

/-- A three-file batch in which `b.pug` references `c.pug` and `a.pug`
references `b.pug`, in this key-insertion order. -/
def filesABC : Batch :=
  [("b.pug", { contents := "c.pug" }), ("a.pug", { contents := "b.pug" }),
   ("c.pug", { contents := "" })]

/-! ## Helper lemmas -/

theorem dg_arith (L i x : Nat) (h : i < L) :
    (L - 1) * (L - 1 + 1) + ((L - 1) - x) < L * (L + 1) + (L - i) := by
  obtain ⟨K, rfl⟩ : ∃ K, L = K + 1 := ⟨L - 1, by omega⟩
  simp only [Nat.add_sub_cancel]
  have h1 : K - x ≤ K := Nat.sub_le _ _
  have h2 : K * (K + 1) + K < (K + 1) * (K + 2) := by nlinarith
  calc K * (K + 1) + (K - x) ≤ K * (K + 1) + K := Nat.add_le_add_left h1 _
    _ < (K + 1) * (K + 2) := h2
    _ ≤ (K + 1) * (K + 2) + (K + 1 - i) := Nat.le_add_right _ _

/-- Every guarded iteration of the dependency-graph scan strictly decreases
the measure: a splice shortens the array, a plain advance moves the index
toward the end of an unchanged array. -/
theorem dgMeasure_dgStep_lt (files : Batch) (modDirs : List String) (bd : Option String)
    (src : String) (st : DGState) (h : st.i < st.paths.length) :
    dgMeasure (dgStep files modDirs bd src st) < dgMeasure st := by
  have hlen : (st.paths.eraseIdx st.i).length = st.paths.length - 1 := by
    rw [List.length_eraseIdx]
    simp [h]
  simp only [dgStep]
  split
  · simp only [dgMeasure, hlen]
    exact dg_arith _ _ _ h
  · split
    · simp only [dgMeasure, hlen]
      exact dg_arith _ _ _ h
    · simp only [dgMeasure]
      exact Nat.add_lt_add_left (Nat.sub_lt_sub_left h (Nat.lt_succ_self st.i)) _

/-- Any fuel above the measure completes the scan. -/
theorem dgRun_isSome (files : Batch) (modDirs : List String) (bd : Option String)
    (src : String) : ∀ (fuel : Nat) (st : DGState), dgMeasure st < fuel →
      (dgRun files modDirs bd src fuel st).isSome = true := by
  intro fuel
  induction fuel with
  | zero => intro st hst; omega
  | succ n ih =>
    intro st hst
    unfold dgRun
    by_cases hi : st.i < st.paths.length
    · simp only [hi, if_true]
      exact ih _ (by have := dgMeasure_dgStep_lt files modDirs bd src st hi; omega)
    · simp [hi]

theorem assocContains_iff {α : Type} (l : List (String × α)) (p : String) :
    assocContains l p = true ↔ ∃ v, (p, v) ∈ l := by
  simp only [assocContains, List.any_eq_true]
  constructor
  · rintro ⟨⟨k, v⟩, hmem, hbeq⟩
    have hk : k = p := by simpa using hbeq
    subst hk
    exact ⟨v, hmem⟩
  · rintro ⟨v, hmem⟩
    exact ⟨(p, v), hmem, by simp⟩

theorem assocContains_of_lookup {α : Type} (l : List (String × α)) (k : String) (v : α)
    (h : assocLookup l k = some v) : assocContains l k = true := by
  simp only [assocLookup, Option.map_eq_some'] at h
  obtain ⟨kv, hfind, hv⟩ := h
  have hmem := List.mem_of_find?_eq_some hfind
  have hp := List.find?_some hfind
  exact (assocContains_iff l k).mpr ⟨kv.2, by
    have : kv.1 = k := by simpa using hp
    cases kv
    simp_all⟩

theorem assocLookup_isSome {α : Type} (l : List (String × α)) (p : String)
    (h : assocContains l p = true) : ∃ v, assocLookup l p = some v := by
  obtain ⟨v, hmem⟩ := (assocContains_iff l p).mp h
  have hs : (l.find? (fun kv => kv.1 == p)).isSome = true := by
    rw [List.find?_isSome]
    exact ⟨(p, v), hmem, by simp⟩
  obtain ⟨kv, hkv⟩ := Option.isSome_iff_exists.mp hs
  exact ⟨kv.2, by simp [assocLookup, hkv]⟩

/-- Overwriting one key in place leaves the key set unchanged. -/
theorem assocContains_map_overwrite {α : Type} (l : List (String × α)) (k : String) (v : α)
    (p : String) :
    assocContains (l.map (fun kv => if kv.1 == k then (k, v) else kv)) p = assocContains l p := by
  induction l with
  | nil => rfl
  | cons hd tl ih =>
    simp only [List.map_cons, assocContains, List.any_cons] at *
    rw [ih]
    congr 1
    by_cases h1 : (hd.1 == k) = true
    · simp only [h1, if_true]
      rw [beq_iff_eq.mp h1]
    · simp [h1]

theorem assocContains_assocSet {α : Type} (l : List (String × α)) (k : String) (v : α)
    (p : String) : assocContains (assocSet l k v) p = true ↔
      (p = k ∨ assocContains l p = true) := by
  simp only [assocSet]
  split
  · rename_i hck
    rw [assocContains_map_overwrite]
    constructor
    · exact fun h => Or.inr h
    · rintro (rfl | h)
      · exact hck
      · exact h
  · simp only [assocContains, List.any_append, List.any_cons, List.any_nil, Bool.or_false,
      Bool.or_eq_true, List.any_eq_true]
    constructor
    · rintro (h | hbeq)
      · exact Or.inr (by simpa [assocContains, List.any_eq_true] using h)
      · exact Or.inl (beq_iff_eq.mp hbeq).symm
    · rintro (rfl | h)
      · exact Or.inr (by simp)
      · exact Or.inl (by simpa [assocContains, List.any_eq_true] using h)

theorem assocContains_merge_left {α : Type} (a b : List (String × α)) (p : String)
    (h : assocContains a p = true) : assocContains (assocMerge a b) p = true := by
  simp only [assocMerge, assocContains, List.any_append, List.any_map, Function.comp,
    Bool.or_eq_true]
  left
  simpa [assocContains] using h

theorem assocContains_merge_right {α : Type} (a b : List (String × α)) (p : String)
    (h : assocContains b p = true) : assocContains (assocMerge a b) p = true := by
  by_cases ha : assocContains a p = true
  · exact assocContains_merge_left a b p ha
  · obtain ⟨v, hmem⟩ := (assocContains_iff b p).mp h
    have ha2 : assocContains a p = false := by simpa using ha
    simp only [assocMerge, assocContains, List.any_append, Bool.or_eq_true]
    right
    rw [List.any_eq_true]
    refine ⟨(p, v), List.mem_filter.mpr ⟨hmem, ?_⟩, by simp⟩
    show (!assocContains a p) = true
    rw [ha2]
    rfl

theorem find?_map_overwrite {α : Type} (b : List (String × α)) (w : α) :
    ∀ (a : List (String × α)) (p : String), assocContains a p = true →
      assocLookup b p = some w →
      (a.map (fun kv => (kv.1, (assocLookup b kv.1).getD kv.2))).find? (fun kv => kv.1 == p)
        = some (p, w) := by
  intro a
  induction a with
  | nil => intro p h _; simp [assocContains] at h
  | cons hd tl ih =>
    intro p h hw
    simp only [List.map_cons, List.find?_cons]
    by_cases h1 : (hd.1 == p) = true
    · simp only [h1]
      have hk : hd.1 = p := beq_iff_eq.mp h1
      rw [hk, hw]
      rfl
    · simp only [Bool.not_eq_true] at h1
      simp only [h1]
      refine ih p ?_ hw
      simp only [assocContains, List.any_cons, Bool.or_eq_true] at h
      rcases h with h | h
      · rw [h1] at h
        exact absurd h (by simp)
      · simpa [assocContains] using h

theorem find?_map_none {α : Type} (b : List (String × α)) (a : List (String × α)) (p : String)
    (h : assocContains a p = false) :
    (a.map (fun kv => (kv.1, (assocLookup b kv.1).getD kv.2))).find? (fun kv => kv.1 == p)
      = none := by
  rw [List.find?_eq_none]
  intro kv hkv
  rw [List.mem_map] at hkv
  obtain ⟨⟨k1, v1⟩, hmem, rfl⟩ := hkv
  intro hbeq
  have hcon : assocContains a p = true := (assocContains_iff a p).mpr
    ⟨v1, by have hk : k1 = p := beq_iff_eq.mp (by simpa using hbeq); subst hk; exact hmem⟩
  simp [hcon] at h

theorem find?_filter_not_in {α : Type} (a : List (String × α)) (p : String)
    (h : assocContains a p = false) :
    ∀ (b : List (String × α)),
      (b.filter (fun kv => !(assocContains a kv.1))).find? (fun kv => kv.1 == p)
        = b.find? (fun kv => kv.1 == p) := by
  intro b
  induction b with
  | nil => rfl
  | cons hd tl ih =>
    simp only [List.filter_cons]
    by_cases h1 : (hd.1 == p) = true
    · have hk : hd.1 = p := beq_iff_eq.mp h1
      have hg : (!(assocContains a hd.1)) = true := by rw [hk, h]; rfl
      rw [if_pos hg]
      simp only [List.find?_cons, h1]
    · have h1f : (hd.1 == p) = false := by simpa using h1
      by_cases hg : (!(assocContains a hd.1)) = true
      · rw [if_pos hg]
        simp only [List.find?_cons, h1f]
        exact ih
      · rw [if_neg (by simpa using hg)]
        simp only [List.find?_cons, h1f]
        exact ih

/-- A spread `{...a, ...b}` reads back the `b` value on every key of `b`. -/
theorem assocLookup_merge_right {α : Type} (a b : List (String × α)) (p : String)
    (hb : assocContains b p = true) :
    assocLookup (assocMerge a b) p = assocLookup b p := by
  obtain ⟨w, hw⟩ := assocLookup_isSome b p hb
  rw [hw]
  show ((a.map (fun kv => (kv.1, (assocLookup b kv.1).getD kv.2)) ++
      b.filter (fun kv => !(assocContains a kv.1))).find? (fun kv => kv.1 == p)).map
      (fun kv => kv.2) = some w
  rw [List.find?_append]
  by_cases ha : assocContains a p = true
  · rw [find?_map_overwrite b w a p ha hw]
    rfl
  · rw [find?_map_none b a p (by simpa using ha), find?_filter_not_in a p (by simpa using ha) b]
    simpa [Option.or, assocLookup] using hw

/-- A cache hit reported by the shared lookup idiom is a real key of the
cache. -/
theorem cacheKeyLookup_contains (vR : Bool) (rn : JSRename) (cached : Batch) (k key2 : String)
    (h : cacheKeyLookup vR rn cached k = some key2) : assocContains cached key2 = true := by
  unfold cacheKeyLookup at h
  split at h
  · rename_i hc
    cases h
    exact hc
  · split at h
    · simp only [] at h
      split at h
      · rename_i hc
        cases h
        exact hc
      · exact absurd h (by simp)
    · exact absurd h (by simp)

/-- Every key present after the restore loop was a batch key on entry or a
key of the (restore-time) cache. -/
theorem restoreAll_contains (vR : Bool) (rn : JSRename) (pr : Option PropsVal) (cached : Batch) :
    ∀ (flt : List (String × FileRecord)) (files : Batch) (p : String),
      assocContains (restoreAll vR rn pr cached flt files) p = true →
      assocContains files p = true ∨ assocContains cached p = true := by
  intro flt
  induction flt with
  | nil =>
    intro files p h
    exact Or.inl h
  | cons kv rest ih =>
    intro files p h
    obtain ⟨k, r⟩ := kv
    rw [restoreAll] at h
    split at h
    · rename_i key2 hkey
      split at h
      · rename_i c heq
        rcases ih _ p h with hset | hc
        · rcases (assocContains_assocSet _ _ _ p).mp hset with rfl | hf
          · exact Or.inr (cacheKeyLookup_contains vR rn cached k p hkey)
          · exact Or.inl hf
        · exact Or.inr hc
      · exact ih _ p h
    · exact ih _ p h

/-- The mark test of the graph unfolded to its propositional content. -/
theorem depHit_iff (mods dirs : List String) (d : String) :
    depHit mods dirs d = true ↔
      d ∈ mods ∨ (∃ m ∈ mods, strStartsWith m d = true) ∨
        (∃ m ∈ dirs, strStartsWith m d = true) := by
  simp only [depHit, isInDir, Bool.or_eq_true, List.any_eq_true, List.contains_iff_exists_mem_beq]
  constructor
  · rintro ((h | h) | h)
    · obtain ⟨m, hm, hb⟩ := h
      exact Or.inl (by rwa [show d = m from beq_iff_eq.mp hb])
    · exact Or.inr (Or.inl h)
    · exact Or.inr (Or.inr h)
  · rintro (h | h | h)
    · exact Or.inl (Or.inl ⟨d, h, by simp⟩)
    · exact Or.inl (Or.inr h)
    · exact Or.inr h

/-! ## Claim checks -/

/-- C1: the claim states that when only `c.pug` is marked modified and
`a.pug` references `b.pug` references `c.pug`, the dependency-graph run
marks both `a.pug` and `b.pug` regardless of iteration order.  On the batch
`filesABC` (keys in order `b.pug`, `a.pug`, `c.pug`) the code marks
`b.pug` but never re-examines `a.pug`: after marking at index `i` it sets
`i = 0`, the `for` update increments to `1`, and the path now sitting at
index `0` is skipped — contradicting the comment above that reset, which
says prior items must be rescanned.  The filter stage consequently moves
`a.pug` aside. -/
theorem dep_graph_transitivity_failure :
    (depGraphFrom filesABC ["c.pug"] [] none "/src" specRefContents).contains "b.pug" = true ∧
    (depGraphFrom filesABC ["c.pug"] [] none "/src" specRefContents).contains "a.pug" = false ∧
    assocContains (filterStage true [] filesABC ["c.pug"] [] none "/src" specRefContents
      []).movedOut "a.pug" = true := by
  decide

/-- C2: the claim states that the ancestry test answers whether the path
lies under some directory of the list, and that a batch file under a
modified directory is kept by the filter stage.  The code tests
`dirs[i].indexOf(path) === 0` — whether the directory string starts with
the path — so `foo/bar.md` is not recognized as lying under `foo` (while,
conversely, a path is recognized under any longer directory string it
prefixes), and the filter stage moves `foo/bar.md` aside even though
`modifiedDirs = [foo]`. -/
theorem is_in_dir_ancestry_inverted :
    isInDir "foo/bar.md" ["foo"] = false ∧
    isInDir "foo" ["foo/bar"] = true ∧
    assocContains (filterStage true [] [("foo/bar.md", { contents := "x" })] [] ["foo"] none
      "/src" DepSpec.undef []).movedOut "foo/bar.md" = true := by
  decide

/-- C3, counterexample: the claim states that a reference to a removed
file, or to a path under a removed directory, marks the referencing file
modified.  With `removedFiles = [sub/r.md]` and `removedDirs = [sub]`, the
file `a.pug` whose sole normalized reference is `sub/r.md` stays unmarked
and is moved aside by the filter: neither the graph nor the filter stage
receives the removed sets at all (`depGraph` takes only the modified
sets), so the run below is the run for every value of the removed sets. -/
theorem dep_graph_ignores_removed :
    normalizeDep none "/src" "a.pug" "sub/r.md" = "sub/r.md" ∧
    strStartsWith "sub/r.md" "sub" = true ∧
    (depGraphFrom [("a.pug", { contents := "sub/r.md" })] [] [] none "/src"
      specRefContents).contains "a.pug" = false ∧
    assocContains (filterStage true [] [("a.pug", { contents := "sub/r.md" })] [] [] none "/src"
      specRefContents []).movedOut "a.pug" = true := by
  decide

/-- C3, as amended: when the scan examines a worklist file (a resolver
applies, the file is not yet marked, and the inverted directory test does
not skip it), the file is marked modified exactly when some normalized
reference is itself a modified file, or is a string prefix of some
modified-file key, or is a string prefix of some modified-directory entry.
Removed files and removed directories are not consulted — they are not
parameters of the graph. -/
theorem dep_mark_condition (files : Batch) (modDirs : List String) (bd : Option String)
    (src : String) (st : DGState) (f : String)
    (hf : st.paths.getD st.i "" = f)
    (hconc : (getDepResolver f st.spec).isConcrete = true)
    (hmod : st.modFiles.contains f = false)
    (hdir : isInDir f modDirs = false) :
    ((dgStep files modDirs bd src st).modFiles.contains f = true) ↔
      ∃ d ∈ (collectDeps (getDepResolver f st.spec) (fileOf files f) bd).map
          (normalizeDep bd src f),
        d ∈ st.modFiles ∨ (∃ m ∈ st.modFiles, strStartsWith m d = true) ∨
          (∃ m ∈ modDirs, strStartsWith m d = true) := by
  have hskip : (!(getDepResolver f st.spec).isConcrete || st.modFiles.contains f
      || isInDir f modDirs) = false := by
    rw [hconc, hmod, hdir]
    rfl
  simp only [dgStep, hf, hskip, Bool.false_eq_true, if_false]
  split
  · rename_i d0 hfind
    have hlhs : (insertMod f st.modFiles).contains f = true := by
      simp only [insertMod, hmod, Bool.false_eq_true, if_false]
      simp
    simp only [hlhs, true_iff]
    have hmem := List.mem_of_find?_eq_some hfind
    have hpred := List.find?_some hfind
    exact ⟨d0, hmem, (depHit_iff _ _ _).mp hpred⟩
  · rename_i hfind
    simp only [hmod, Bool.false_eq_true, false_iff]
    rw [List.find?_eq_none] at hfind
    rintro ⟨d, hd, hcond⟩
    exact absurd ((depHit_iff _ _ _).mpr hcond) (hfind d hd)

/-- C3, witness for the amended statement: one scan step over the one-file
batch whose file `a.pug` references the already-modified `b.pug`. -/
theorem dep_mark_condition_witness :
    ((dgStep [("a.pug", { contents := "b.pug" })] [] none "/src"
        { paths := ["a.pug"], i := 0, modFiles := ["b.pug"],
          spec := specRefContents }).modFiles.contains "a.pug" = true) ↔
      ∃ d ∈ (collectDeps (getDepResolver "a.pug" specRefContents)
          (fileOf [("a.pug", { contents := "b.pug" })] "a.pug") none).map
          (normalizeDep none "/src" "a.pug"),
        d ∈ ["b.pug"] ∨ (∃ m ∈ ["b.pug"], strStartsWith m d = true) ∨
          (∃ m ∈ ([] : List String), strStartsWith m d = true) :=
  dep_mark_condition [("a.pug", { contents := "b.pug" })] [] none "/src"
    { paths := ["a.pug"], i := 0, modFiles := ["b.pug"], spec := specRefContents } "a.pug"
    (by decide) (by decide) (by decide) (by decide)

/-- C4: the claim states that a filtered-aside file whose path falls under
a directory recorded as removed is not restored.  With
`removedDirs = [foo]` and `foo/x.md` both filtered aside and cached, the
removed-directory purge tests the inverted `isInDir`, the cache entry
survives, and the stage restores `foo/x.md` with the cached content into
the final batch (and keeps its cache entry). -/
theorem cache_restores_file_under_removed_dir :
    lookupFile (cacheRunD true JSRename.nonObject none [] [("foo/x.md", { contents := "OLD" })]
      [] ["foo"] [] [("foo/x.md", { contents := "CACHED" })]).files "foo/x.md"
      = some { contents := "CACHED" } ∧
    assocContains (cacheRunD true JSRename.nonObject none [] [("foo/x.md", { contents := "OLD" })]
      [] ["foo"] [] [("foo/x.md", { contents := "CACHED" })]).cached "foo/x.md" = true := by
  decide

/-- C5: after every cache-stage run, every path of the just-completed
batch — the batch as it stood on entry plus everything the stage restored
into it, which is exactly the key set of the resulting batch, since the
stage only adds records — has an entry in the stored cache, and on the
entry keys the stored value is the just-taken snapshot (existing entries
overwritten). -/
theorem cache_store_invariant (isR : Bool) (rn : JSRename) (pr : Option PropsVal)
    (files filtered : Batch) (removedF removedD modF : List String) (cached : Batch)
    (res : CacheResult)
    (h : cacheStage isR rn pr files filtered removedF removedD modF cached = Except.ok res) :
    (∀ p, assocContains res.files p = true → assocContains res.cached p = true) ∧
    (∀ p, assocContains files p = true → assocLookup res.cached p = assocLookup files p) := by
  cases isR with
  | false =>
    simp only [cacheStage, Bool.false_eq_true, if_false, Except.ok.injEq] at h
    subst h
    constructor
    · intro p hp
      exact assocContains_merge_right _ _ _ hp
    · intro p hp
      exact assocLookup_merge_right _ _ _ hp
  | true =>
    by_cases hn : isNullRename rn = true
    · simp [cacheStage, hn] at h
    · simp only [cacheStage, if_true, hn, Bool.false_eq_true, if_false, Except.ok.injEq,
        Bool.not_eq_true] at h
      subst h
      simp only [cacheCore]
      constructor
      · intro p hp
        rcases restoreAll_contains _ _ _ _ _ _ p hp with hf | hc
        · exact assocContains_merge_right _ _ _ hf
        · exact assocContains_merge_left _ _ _ hc
      · intro p hp
        exact assocLookup_merge_right _ _ _ hp

/-- C5, witness: a first-cycle run over a one-file batch leaves the file
cached. -/
theorem cache_store_invariant_witness :
    assocContains (cacheRunD false JSRename.nonObject none [("a.md", { contents := "x" })]
      [] [] [] [] []).cached "a.md" = true :=
  (cache_store_invariant false JSRename.nonObject none [("a.md", { contents := "x" })]
    [] [] [] [] []
    (cacheRunD false JSRename.nonObject none [("a.md", { contents := "x" })] [] [] [] [] [])
    rfl).1 "a.md" (by decide)

/-- C6: the claim states that a second filter run over the same pre-filter
batch with the unchanged (though first-run-enriched) ChangeSet produces
the same filtered-aside set.  On `filesABC` with `modifiedFiles = [c.pug]`
the first run moves `a.pug` aside (the propagation defect of C1), while
the second run — starting from the marks the first run added — marks
`a.pug` too and moves nothing aside. -/
theorem filter_not_idempotent :
    (filterStage true [] filesABC ["c.pug"] [] none "/src" specRefContents []).movedOut ≠
      (filterStage true [] filesABC
        (filterStage true [] filesABC ["c.pug"] [] none "/src" specRefContents []).modFiles
        [] none "/src" specRefContents
        (filterStage true [] filesABC ["c.pug"] [] none "/src" specRefContents
          []).filtered).movedOut := by
  decide

/-- C7: the claim states that once a removed-file deletion resolves via
the rename rule, the original key is cleared from `removedFiles`.  With
`removedFiles = [a.pug]`, a cache holding only `a.html`, and the rule
substituting `.html` for a final `.pug`, the stage deletes the cache entry
found under the renamed key but then deletes `removedFiles[a.html]` — the
reassigned loop variable, not the original key — so `a.pug` stays in
`removedFiles`. -/
theorem cache_removed_rename_clears_wrong_key :
    (cacheRunD true (JSRename.objFromTo replacePugHtml) none [] [] ["a.pug"] [] []
      [("a.html", { contents := "H" })]).removedFiles = ["a.pug"] ∧
    assocContains (cacheRunD true (JSRename.objFromTo replacePugHtml) none [] [] ["a.pug"] [] []
      [("a.html", { contents := "H" })]).cached "a.html" = false := by
  decide

/-- C8, counterexample: the claim states that every rename rule that is
neither a function nor an object with truthy `from` and `to` makes
`resolveRename` return the path unchanged without error.  The value
`null` is such a rule (`typeof null` is `object`, but it has no
properties), and on it the shape test dereferences `null` and throws. -/
theorem resolve_rename_null_throws :
    resolveRename "a.pug" JSRename.nullVal
      = Except.error "TypeError: rename.from on null" := rfl

/-- C8, as amended: for every path and every rename rule that is neither a
function, nor `null`, nor an object with both a truthy `from` and a truthy
`to`, `resolveRename` returns the path unchanged and raises no error, and
the rule fails the `validRename` shape test, so the cache-stage lookups
fall back to direct lookup only. -/
theorem resolve_rename_degrades_silently (p : String) (r : JSRename)
    (h : r = JSRename.objOther ∨ r = JSRename.nonObject) :
    resolveRename p r = Except.ok p ∧ validRename r = false := by
  rcases h with rfl | rfl
  · exact ⟨rfl, rfl⟩
  · exact ⟨rfl, rfl⟩

/-- C8, witness: an object rule without usable `from`/`to`. -/
theorem resolve_rename_degrades_silently_witness :
    resolveRename "a.pug" JSRename.objOther = Except.ok "a.pug" ∧
    validRename JSRename.objOther = false :=
  resolve_rename_degrades_silently "a.pug" JSRename.objOther (Or.inl rfl)

/-- C9: the dependency-graph scan terminates on every finite batch, every
modified set, and every resolver configuration — cyclic reference chains
included, since nothing in the statement restricts the reference relation:
the fuelled run with fuel one above the initial measure reaches the loop
exit, and `depGraphFrom` returns that final modified set. -/
theorem dep_graph_terminates (files : Batch) (modFiles modDirs : List String)
    (bd : Option String) (src : String) (spec : DepSpec) :
    ∃ result,
      dgRun files modDirs bd src (dgMeasure (dgInit files modFiles spec) + 1)
        (dgInit files modFiles spec) = some result ∧
      depGraphFrom files modFiles modDirs bd src spec = result := by
  have h := dgRun_isSome files modDirs bd src (dgMeasure (dgInit files modFiles spec) + 1)
    (dgInit files modFiles spec) (by omega)
  obtain ⟨r, hr⟩ := Option.isSome_iff_exists.mp h
  exact ⟨r, hr, by simp [depGraphFrom, hr]⟩

/-- C10: with no property-copy list configured, the per-record restore
block overwrites exactly the `contents` property of the filtered-aside
record with the cached value; the metadata properties are untouched —
none added, none removed, none changed. -/
theorem cache_restore_frame (r c : FileRecord) :
    (restoredRecord none r c).contents = c.contents ∧
    (restoredRecord none r c).meta = r.meta ∧
    restoredRecord none r c = { r with contents := c.contents } :=
  ⟨rfl, rfl, rfl⟩
